import Mathlib

/-!
# Verification of `ordered_map::ordered_map_t` (Galfurian/ordered_map)

Shallow embedding of `include/ordered_map/ordered_map.hpp` (v1.0.5).
The C++ container pairs a `std::list<std::pair<Key, Value>>` (the Sequence)
with a `std::map<Key, list::iterator>` (the Index).

Modelling decisions:
* A Sequence node is a `Node`: a stable numeric identity `nid` (standing for
  the address/identity of the `std::list` node, which survives sorting and
  unrelated mutations) together with the stored key and value.
* A list iterator pointing at a node is represented by that node's `nid`;
  the `end()` sentinel is `none` in an `Option Nat`.
* The `std::map<Key, iterator>` is modelled as an association list
  `List (Key × Nat)` with exact-key lookup; the map's internal ordering is
  unobservable through the container's API (only `find`/`insert`/`erase`/
  `count` by exact key are used), so an association list with unique keys is
  observationally faithful.
* Fresh node identities are drawn from a counter `nextId` (in C++, a newly
  allocated node has an address distinct from all live nodes).
-/

namespace OrderedMapModel

/-- A node of the `std::list`: stable identity plus the stored
`list_entry_t = std::pair<Key, Value>`. -/
structure Node (K V : Type) where
  nid : Nat
  key : K
  val : V
deriving DecidableEq, Repr

/-- The state of an `ordered_map_t<Key, Value>`: the sequence `list`, the
key index `table` (key to node identity), and the fresh-identity counter. -/
structure OMap (K V : Type) where
  list : List (Node K V)
  table : List (K × Nat)
  nextId : Nat
deriving DecidableEq, Repr

variable {K V : Type}

/-- A default-constructed `ordered_map_t`: both structures empty. -/
def emptyMap (K V : Type) : OMap K V :=
  { list := [], table := [], nextId := 0 }

/-- `table.find(key)` of the `std::map<Key, iterator>`: exact-key lookup,
returning the stored list-node identity, or `none` for `table.end()`. -/
def tableFind [DecidableEq K] : List (K × Nat) → K → Option Nat
  | [], _ => none
  | p :: rest, k => if p.1 = k then some p.2 else tableFind rest k

/-- `table.erase(it)` on the entry found for key `k`: removes the (unique)
index entry carrying that key. -/
def tableErase [DecidableEq K] : List (K × Nat) → K → List (K × Nat)
  | [], _ => []
  | p :: rest, k => if p.1 = k then rest else p :: tableErase rest k

/-- Dereferencing a list iterator: the node of the sequence carrying the
given identity (the first one, which is unique in well-formed states). -/
def findNode : List (Node K V) → Nat → Option (Node K V)
  | [], _ => none
  | e :: rest, h => if e.nid = h then some e else findNode rest h

/-- `++it_list` on the iterator at node `h`: the identity of the node that
follows `h` in sequence order, or `none` for `end()`. -/
def nextHandle : List (Node K V) → Nat → Option Nat
  | [], _ => none
  | e :: rest, h => if e.nid = h then (rest.head?).map Node.nid else nextHandle rest h

/-- `list.erase(it)` at the node with identity `h`: unlinks that one node. -/
def removeNode : List (Node K V) → Nat → List (Node K V)
  | [], _ => []
  | e :: rest, h => if e.nid = h then rest else e :: removeNode rest h

/-- `ordered_map_t::set(key, value)`: upsert. If the key is absent from the
table, a new node is appended at `list.end()` and registered in the table;
otherwise the value of the node the table points at is overwritten in place.
Returns the new state and the iterator (node identity) the C++ code returns. -/
def setk [DecidableEq K] (m : OMap K V) (k : K) (v : V) : OMap K V × Nat :=
  match tableFind m.table k with
  | none =>
    let h := m.nextId
    ({ list := m.list ++ [{ nid := h, key := k, val := v }],
       table := m.table ++ [(k, h)],
       nextId := h + 1 }, h)
  | some h =>
    ({ m with
       list := m.list.map (fun e => if e.nid = h then { e with val := v } else e) }, h)

/-- `ordered_map_t::emplace(key, args...)`: same upsert policy as `set`; the
value `v` stands for `Value(std::forward<Args>(args)...)`. The insert path
emplaces a fresh node at `list.end()`; the update path reassigns the value. -/
def emplacek [DecidableEq K] (m : OMap K V) (k : K) (v : V) : OMap K V × Nat :=
  match tableFind m.table k with
  | none =>
    let h := m.nextId
    ({ list := m.list ++ [{ nid := h, key := k, val := v }],
       table := m.table ++ [(k, h)],
       nextId := h + 1 }, h)
  | some h =>
    ({ m with
       list := m.list.map (fun e => if e.nid = h then { e with val := v } else e) }, h)

/-- `ordered_map_t::find(key)`: table lookup; the end sentinel (`none`) when
the key is absent, else the iterator stored in the table. -/
def findk [DecidableEq K] (m : OMap K V) (k : K) : Option Nat :=
  tableFind m.table k

/-- `find(key)->second` composed with the iterator dereference: the value the
caller reads through the iterator returned by `find`. -/
def findVal [DecidableEq K] (m : OMap K V) (k : K) : Option V :=
  match tableFind m.table k with
  | none => none
  | some h => (findNode m.list h).map Node.val

/-- `ordered_map_t::has(key)`: `table.find(key) != table.end()`. -/
def hasKey [DecidableEq K] (m : OMap K V) (k : K) : Bool :=
  (tableFind m.table k).isSome

/-- `ordered_map_t::count(key)`: `table.count(key)`, i.e. 0 or 1. -/
def countKey [DecidableEq K] (m : OMap K V) (k : K) : Nat :=
  match tableFind m.table k with
  | none => 0
  | some _ => 1

/-- `ordered_map_t::erase(const Key&)`: if the key is absent, return
`list.end()` and leave everything unchanged; otherwise advance a copy of the
stored iterator (`++it_list`), unlink the node and the index entry, and
return the advanced iterator. -/
def erasek [DecidableEq K] (m : OMap K V) (k : K) : OMap K V × Option Nat :=
  match tableFind m.table k with
  | none => (m, none)
  | some h =>
    ({ list := removeNode m.list h,
       table := tableErase m.table k,
       nextId := m.nextId }, nextHandle m.list h)

/-- `ordered_map_t::erase(iterator)` at the node with identity `h`: the code
dereferences the iterator to read its key, looks that key up in the table,
advances the given iterator, erases `it_table->second` from the list and the
entry from the table. A caller must pass an iterator obtained from this
container (dereferencing a foreign handle is outside the model; the
`findNode = none` branch is unreachable for valid handles). -/
def eraseIt [DecidableEq K] (m : OMap K V) (h : Nat) : OMap K V × Option Nat :=
  match findNode m.list h with
  | none => (m, none)
  | some e =>
    match tableFind m.table e.key with
    | none => (m, none)
    | some h2 =>
      ({ list := removeNode m.list h2,
         table := tableErase m.table e.key,
         nextId := m.nextId }, nextHandle m.list h)

/-- `ordered_map_t::clear()`: empties both the list and the table. -/
def clearMap (m : OMap K V) : OMap K V :=
  { list := [], table := [], nextId := m.nextId }

/-- `ordered_map_t::size()`: `list.size()`. -/
def mapSize (m : OMap K V) : Nat :=
  m.list.length

/-- One insertion step of `std::list::sort`'s stable ordering: `x` is placed
before the first resident element `y` for which `cmp y x` does not hold, so
elements equivalent under `cmp` keep their relative order. -/
def insertCmp (cmp : K × V → K × V → Bool) (x : Node K V) : List (Node K V) → List (Node K V)
  | [] => [x]
  | y :: ys =>
    if cmp (y.key, y.val) (x.key, x.val) then y :: insertCmp cmp x ys else x :: y :: ys

/-- `list.sort(fun)`: a stable sort of the sequence nodes by the user
comparator over `list_entry_t` pairs. Nodes are relinked, not recreated. -/
def sortNodes (cmp : K × V → K × V → Bool) : List (Node K V) → List (Node K V)
  | [] => []
  | x :: xs => insertCmp cmp x (sortNodes cmp xs)

/-- `ordered_map_t::sort(fun)`: sorts the internal list; the table is not
touched. -/
def sortMap [DecidableEq K] (m : OMap K V) (cmp : K × V → K × V → Bool) : OMap K V :=
  { m with list := sortNodes cmp m.list }

/-- Iterated `set`: the fold the `merge` loop performs over its source. -/
def setAll [DecidableEq K] (m : OMap K V) (ps : List (K × V)) : OMap K V :=
  ps.foldl (fun acc p => (setk acc p.1 p.2).1) m

/-- `ordered_map_t::merge(other)`: `set(entry.first, entry.second)` for every
entry of `other.list` in sequence order, then `other.clear()`. Returns the
post-states of the destination and of the source. -/
def mergeMaps [DecidableEq K] (m o : OMap K V) : OMap K V × OMap K V :=
  (setAll m (o.list.map (fun e => (e.key, e.val))), clearMap o)

/-- The copy constructor's sequence clone: each source entry is re-inserted
at the tail of a fresh list, so the clone's nodes are brand-new (fresh
identities `i, i+1, ...` standing for newly allocated addresses). -/
def copyNodes : List (Node K V) → Nat → List (Node K V)
  | [], _ => []
  | e :: rest, i => { nid := i, key := e.key, val := e.val } :: copyNodes rest (i + 1)

/-- The copy constructor's index rebuild: `table.insert({entry.first, it})`
for each cloned entry, where `it` is the iterator to the fresh clone. -/
def copyTable : List (Node K V) → Nat → List (K × Nat)
  | [], _ => []
  | e :: rest, i => (e.key, i) :: copyTable rest (i + 1)

/-- `ordered_map_t(const ordered_map_t&)`: clone the sequence node by node,
registering each fresh node in the new table as it is inserted. -/
def copyOf (m : OMap K V) : OMap K V :=
  { list := copyNodes m.list 0, table := copyTable m.list 0, nextId := m.list.length }

/-- `ordered_map_t(ordered_map_t&&)`: the destination steals the list and the
table; the moved-from container is left empty. Returns (destination, source
after the move). -/
def moveOf (m : OMap K V) : OMap K V × OMap K V :=
  ({ list := m.list, table := m.table, nextId := m.nextId },
   { list := [], table := [], nextId := 0 })

/-- `operator=(const ordered_map_t&)`: guarded by `this != &other` (the flag
`same` embeds that object-identity test, so `same = true` forces `s = t`);
otherwise `clear()` followed by the same clone loop as the copy constructor. -/
def copyAssign (t s : OMap K V) (same : Bool) : OMap K V :=
  if same then t else copyOf s

/-- `operator=(ordered_map_t&&)`: guarded by `this != &other`; otherwise
`clear()` then steal both structures. Returns (target, source) afterwards. -/
def moveAssign (t s : OMap K V) (same : Bool) : OMap K V × OMap K V :=
  if same then (t, s)
  else ({ list := s.list, table := s.table, nextId := s.nextId },
        { list := [], table := [], nextId := 0 })

/-- `ordered_map_t::at(position)`: `std::advance(begin(), min(position,
size()))`; out-of-range positions clamp to `end()` (`none`). -/
def atPos (m : OMap K V) (p : Nat) : Option Nat :=
  (m.list[min p m.list.length]?).map Node.nid

/-- `ordered_map_t::front()`: `list.begin()`, which is `end()` when empty. -/
def frontIt (m : OMap K V) : Option Nat :=
  (m.list.head?).map Node.nid

/-- Result of an iterator-producing operation whose precondition may fail:
either a well-defined iterator (a node or the end sentinel) or an operation
evaluated outside its precondition (undefined behavior in C++). -/
inductive ItOutcome where
  | undef : ItOutcome
  | stop : ItOutcome
  | node : Nat → ItOutcome
deriving DecidableEq, Repr

/-- `ordered_map_t::back()`: `std::prev(list.end())`. `std::prev` requires a
decrementable iterator; on an empty list `end()` has no predecessor, so the
call has no defined result (`undef`). On a nonempty list it is the iterator
to the last node. -/
def backIt (m : OMap K V) : ItOutcome :=
  match m.list.getLast? with
  | none => ItOutcome.undef
  | some e => ItOutcome.node e.nid

/-- `front()` expressed on the same outcome type, for comparison with
`back()`: `begin()` is always well defined (it equals `end()` when empty). -/
def frontOutcome (m : OMap K V) : ItOutcome :=
  match m.list.head? with
  | none => ItOutcome.stop
  | some e => ItOutcome.node e.nid

/-- The (key, value) entries of the sequence, in sequence order: what a full
forward iteration of the container observes. -/
def entries (m : OMap K V) : List (K × V) :=
  m.list.map (fun e => (e.key, e.val))

/-- The keys of the sequence in sequence order (`keys()`). -/
def keysList (m : OMap K V) : List K :=
  m.list.map Node.key

/-- The node identities of the sequence in sequence order. -/
def idsList (m : OMap K V) : List Nat :=
  m.list.map Node.nid

/-- Well-formedness of a container state: the states reachable through the
public API. Conjuncts: distinct node identities; distinct sequence keys (I2);
identities below the freshness counter; distinct table keys (a `std::map`
invariant); every table entry points at a sequence node carrying exactly its
key (half of I1); every sequence node is indexed under its key with its own
identity (the other half of I1). -/
def WF [DecidableEq K] (m : OMap K V) : Prop :=
  (m.list.map Node.nid).Nodup ∧
  (m.list.map Node.key).Nodup ∧
  (∀ e ∈ m.list, e.nid < m.nextId) ∧
  (m.table.map Prod.fst).Nodup ∧
  (∀ p ∈ m.table, ∃ e ∈ m.list, e.nid = p.2 ∧ e.key = p.1) ∧
  (∀ e ∈ m.list, tableFind m.table e.key = some e.nid)

instance [DecidableEq K] (m : OMap K V) : Decidable (WF m) := by
  unfold WF
  infer_instance

/-- The I1/I2 coherence the spec states: the index and the sequence list the
same keys, each index handle resolves (in the sequence) to the node carrying
exactly that key, and no two sequence entries share a key. -/
def IndexCoherent [DecidableEq K] (m : OMap K V) : Prop :=
  (∀ p ∈ m.table, ∃ e ∈ m.list, e.nid = p.2 ∧ e.key = p.1) ∧
  (∀ e ∈ m.list, ∃ p ∈ m.table, p.1 = e.key ∧ p.2 = e.nid) ∧
  (m.list.map Node.key).Nodup

instance [DecidableEq K] (m : OMap K V) : Decidable (IndexCoherent m) := by
  unfold IndexCoherent
  infer_instance

/-- Dereferencing a handle as the user does through an iterator: the
(key, value) entry of the node the handle denotes. -/
def derefIt (m : OMap K V) (h : Nat) : Option (K × V) :=
  (findNode m.list h).map (fun e => (e.key, e.val))

/-- A strict weak ordering on entries, the contract `sort`'s comparator must
satisfy: irreflexive, transitive, with transitive incomparability. -/
def IsSWO {α : Type} (cmp : α → α → Bool) : Prop :=
  (∀ a, cmp a a = false) ∧
  (∀ a b c, cmp a b = true → cmp b c = true → cmp a c = true) ∧
  (∀ a b c, cmp a b = false → cmp b a = false → cmp b c = false → cmp c b = false →
    cmp a c = false ∧ cmp c a = false)

/-- A small reachable container used to instantiate hypotheses of the claim
theorems on concrete data: keys 1, 2 with values 10, 20, in that order. -/
def sampleA : OMap Nat Nat :=
  { list := [{ nid := 0, key := 1, val := 10 }, { nid := 1, key := 2, val := 20 }],
    table := [(1, 0), (2, 1)], nextId := 2 }

/-- A second small container (keys 2, 3), used as a merge source. -/
def sampleB : OMap Nat Nat :=
  { list := [{ nid := 0, key := 2, val := 99 }, { nid := 1, key := 3, val := 30 }],
    table := [(2, 0), (3, 1)], nextId := 2 }

/-- The container of the spec's P7 scenario, built by
`set("a",1); set("b",2); set("c",3)` on an empty map. -/
def buildABC : OMap String Nat :=
  setAll (emptyMap String Nat) [("a", 1), ("b", 2), ("c", 3)]

/-- A comparator on `Nat × Nat` entries (descending by value), used to
instantiate the strict-weak-ordering hypothesis on concrete data. -/
def cmpByVal : Nat × Nat → Nat × Nat → Bool :=
  fun a b => decide (b.2 < a.2)

/-! ## Lemmas about the table (the embedded `std::map<Key, iterator>`) -/

theorem tableFind_append [DecidableEq K] (t1 t2 : List (K × Nat)) (k : K) :
    tableFind (t1 ++ t2) k =
      match tableFind t1 k with
      | some h => some h
      | none => tableFind t2 k := by
  induction t1 with
  | nil => simp [tableFind]
  | cons p rest ih =>
    by_cases hp : p.1 = k
    · simp [tableFind, hp]
    · simp [tableFind, hp, ih]

theorem tableFind_eq_none [DecidableEq K] {t : List (K × Nat)} {k : K} :
    tableFind t k = none ↔ ∀ p ∈ t, p.1 ≠ k := by
  induction t with
  | nil => simp [tableFind]
  | cons p rest ih =>
    by_cases hp : p.1 = k <;> simp [tableFind, hp, ih]

theorem mem_of_tableFind [DecidableEq K] {t : List (K × Nat)} {k : K} {h : Nat}
    (hf : tableFind t k = some h) : (k, h) ∈ t := by
  induction t with
  | nil => simp [tableFind] at hf
  | cons p rest ih =>
    by_cases hp : p.1 = k
    · simp only [tableFind, hp, if_pos] at hf
      exact List.mem_cons.2 (Or.inl (by cases p; simp_all))
    · simp only [tableFind, hp, if_neg, if_false] at hf
      exact List.mem_cons.2 (Or.inr (ih hf))

theorem tableFind_of_mem [DecidableEq K] {t : List (K × Nat)} {k : K} {h : Nat}
    (hnd : (t.map Prod.fst).Nodup) (hm : (k, h) ∈ t) : tableFind t k = some h := by
  induction t with
  | nil => simp at hm
  | cons p rest ih =>
    simp only [List.map_cons, List.nodup_cons] at hnd
    rcases List.mem_cons.1 hm with h1 | h1
    · cases p
      cases h1
      simp [tableFind]
    · have hp : p.1 ≠ k := by
        intro he
        exact hnd.1 (he ▸ List.mem_map_of_mem Prod.fst h1)
      simp [tableFind, hp, ih hnd.2 h1]

theorem tableErase_sublist [DecidableEq K] (t : List (K × Nat)) (k : K) :
    (tableErase t k).Sublist t := by
  induction t with
  | nil => simp [tableErase]
  | cons p rest ih =>
    by_cases hp : p.1 = k
    · simp only [tableErase, if_pos hp]
      exact List.Sublist.cons p (List.Sublist.refl rest)
    · simp only [tableErase, if_neg hp]
      exact List.Sublist.cons₂ p ih

theorem mem_tableErase [DecidableEq K] {t : List (K × Nat)} {k : K} {p : K × Nat}
    (hm : p ∈ tableErase t k) : p ∈ t :=
  (tableErase_sublist t k).subset hm

theorem mem_tableErase_of [DecidableEq K] {t : List (K × Nat)} {k : K} {p : K × Nat}
    (hm : p ∈ t) (hne : p.1 ≠ k) : p ∈ tableErase t k := by
  induction t with
  | nil => simp at hm
  | cons q rest ih =>
    by_cases hq : q.1 = k
    · simp only [tableErase, hq, if_pos]
      rcases List.mem_cons.1 hm with h1 | h1
      · exact absurd (h1 ▸ hq) hne
      · exact h1
    · rcases List.mem_cons.1 hm with h1 | h1
      · simp [tableErase, hq, h1]
      · simp only [tableErase, hq, if_neg, if_false]
        exact List.mem_cons.2 (Or.inr (ih h1))

theorem tableFind_tableErase_ne [DecidableEq K] {t : List (K × Nat)} {k k2 : K}
    (hne : k2 ≠ k) : tableFind (tableErase t k) k2 = tableFind t k2 := by
  induction t with
  | nil => simp [tableErase]
  | cons q rest ih =>
    by_cases hq : q.1 = k
    · have hq2 : q.1 ≠ k2 := by
        rw [hq]
        exact fun he => hne he.symm
      simp only [tableErase, if_pos hq, tableFind, if_neg hq2]
    · by_cases hq2 : q.1 = k2
      · simp only [tableErase, if_neg hq, tableFind, if_pos hq2]
      · simp only [tableErase, if_neg hq, tableFind, if_neg hq2]
        exact ih

/-! ## Lemmas about sequence-node search, successor and removal -/

theorem findNode_eq_none {l : List (Node K V)} {h : Nat} :
    findNode l h = none ↔ ∀ e ∈ l, e.nid ≠ h := by
  induction l with
  | nil => simp [findNode]
  | cons q rest ih =>
    by_cases hq : q.nid = h <;> simp [findNode, hq, ih]

theorem findNode_some_mem {l : List (Node K V)} {h : Nat} {e : Node K V}
    (hf : findNode l h = some e) : e ∈ l ∧ e.nid = h := by
  induction l with
  | nil => simp [findNode] at hf
  | cons q rest ih =>
    by_cases hq : q.nid = h
    · simp only [findNode, hq, if_pos, Option.some_inj] at hf
      exact ⟨List.mem_cons.2 (Or.inl hf.symm), hf ▸ hq⟩
    · simp only [findNode, hq, if_neg, if_false] at hf
      exact ⟨List.mem_cons.2 (Or.inr (ih hf).1), (ih hf).2⟩

theorem findNode_of_mem {l : List (Node K V)} {e : Node K V}
    (hnd : (l.map Node.nid).Nodup) (hm : e ∈ l) : findNode l e.nid = some e := by
  induction l with
  | nil => simp at hm
  | cons q rest ih =>
    simp only [List.map_cons, List.nodup_cons] at hnd
    rcases List.mem_cons.1 hm with h1 | h1
    · subst h1
      simp [findNode]
    · have hq : q.nid ≠ e.nid := by
        intro he
        exact hnd.1 (he ▸ List.mem_map_of_mem Node.nid h1)
      simp [findNode, hq, ih hnd.2 h1]

theorem findNode_append (l1 l2 : List (Node K V)) (h : Nat) :
    findNode (l1 ++ l2) h =
      match findNode l1 h with
      | some e => some e
      | none => findNode l2 h := by
  induction l1 with
  | nil => simp [findNode]
  | cons q rest ih =>
    by_cases hq : q.nid = h
    · simp [findNode, hq]
    · simp [findNode, hq, ih]

theorem findNode_map_of_nid {l : List (Node K V)} {f : Node K V → Node K V}
    (hf : ∀ e, (f e).nid = e.nid) (h : Nat) :
    findNode (l.map f) h = (findNode l h).map f := by
  induction l with
  | nil => simp [findNode]
  | cons q rest ih =>
    by_cases hq : q.nid = h
    · simp [findNode, hf, hq]
    · simp [findNode, hf, hq, ih]

theorem removeNode_sublist (l : List (Node K V)) (h : Nat) :
    (removeNode l h).Sublist l := by
  induction l with
  | nil => simp [removeNode]
  | cons q rest ih =>
    by_cases hq : q.nid = h
    · simp only [removeNode, if_pos hq]
      exact List.Sublist.cons q (List.Sublist.refl rest)
    · simp only [removeNode, if_neg hq]
      exact List.Sublist.cons₂ q ih

theorem mem_removeNode {l : List (Node K V)} {h : Nat} {e : Node K V}
    (hm : e ∈ removeNode l h) : e ∈ l :=
  (removeNode_sublist l h).subset hm

theorem mem_removeNode_of_ne {l : List (Node K V)} {h : Nat} {e : Node K V}
    (hm : e ∈ l) (hne : e.nid ≠ h) : e ∈ removeNode l h := by
  induction l with
  | nil => simp at hm
  | cons q rest ih =>
    by_cases hq : q.nid = h
    · simp only [removeNode, hq, if_pos]
      rcases List.mem_cons.1 hm with h1 | h1
      · exact absurd (h1 ▸ hq) hne
      · exact h1
    · rcases List.mem_cons.1 hm with h1 | h1
      · simp [removeNode, hq, h1]
      · simp only [removeNode, hq, if_neg, if_false]
        exact List.mem_cons.2 (Or.inr (ih h1))

theorem not_mem_removeNode {l : List (Node K V)} {h : Nat} {e : Node K V}
    (hnd : (l.map Node.nid).Nodup) (he : e.nid = h) : e ∉ removeNode l h := by
  induction l with
  | nil => simp [removeNode]
  | cons q rest ih =>
    simp only [List.map_cons, List.nodup_cons] at hnd
    by_cases hq : q.nid = h
    · simp only [removeNode, hq, if_pos]
      intro hmem
      exact hnd.1 ((hq.trans he.symm) ▸ List.mem_map_of_mem Node.nid hmem)
    · simp only [removeNode, hq, if_neg, if_false]
      intro hmem
      rcases List.mem_cons.1 hmem with h1 | h1
      · exact hq (h1 ▸ he)
      · exact ih hnd.2 h1

theorem removeNode_eq_append {pre suf : List (Node K V)} {e : Node K V}
    (hfr : ∀ x ∈ pre, x.nid ≠ e.nid) :
    removeNode (pre ++ e :: suf) e.nid = pre ++ suf := by
  induction pre with
  | nil => simp [removeNode]
  | cons q rest ih =>
    have hq : q.nid ≠ e.nid := hfr q (List.mem_cons_self q rest)
    simp only [List.cons_append, removeNode, hq, if_neg, if_false, List.append_eq]
    rw [ih (fun x hx => hfr x (List.mem_cons.2 (Or.inr hx)))]

theorem nextHandle_eq_append {pre suf : List (Node K V)} {e : Node K V}
    (hfr : ∀ x ∈ pre, x.nid ≠ e.nid) :
    nextHandle (pre ++ e :: suf) e.nid = (suf.head?).map Node.nid := by
  induction pre with
  | nil => simp [nextHandle]
  | cons q rest ih =>
    have hq : q.nid ≠ e.nid := hfr q (List.mem_cons_self q rest)
    simp only [List.cons_append, nextHandle, hq, if_neg, if_false, List.append_eq]
    exact ih (fun x hx => hfr x (List.mem_cons.2 (Or.inr hx)))

/-! ## The value-update map used by the `set`/`emplace` update branch -/

theorem map_upd_nid (l : List (Node K V)) (h : Nat) (v : V) :
    (l.map (fun e => if e.nid = h then { e with val := v } else e)).map Node.nid =
      l.map Node.nid := by
  induction l with
  | nil => rfl
  | cons q rest ih =>
    by_cases hq : q.nid = h <;> simp [hq, ih]

theorem map_upd_key (l : List (Node K V)) (h : Nat) (v : V) :
    (l.map (fun e => if e.nid = h then { e with val := v } else e)).map Node.key =
      l.map Node.key := by
  induction l with
  | nil => rfl
  | cons q rest ih =>
    by_cases hq : q.nid = h <;> simp [hq, ih]

theorem upd_nid (e : Node K V) (h : Nat) (v : V) :
    (if e.nid = h then { e with val := v } else e).nid = e.nid := by
  by_cases hq : e.nid = h <;> simp [hq]

theorem upd_key (e : Node K V) (h : Nat) (v : V) :
    (if e.nid = h then { e with val := v } else e).key = e.key := by
  by_cases hq : e.nid = h <;> simp [hq]

/-! ## Injectivity of node identity and key inside a well-formed sequence -/

theorem nid_inj {l : List (Node K V)} (hnd : (l.map Node.nid).Nodup)
    {a b : Node K V} (ha : a ∈ l) (hb : b ∈ l) (he : a.nid = b.nid) : a = b :=
  List.inj_on_of_nodup_map hnd ha hb he

theorem key_inj {l : List (Node K V)} (hnd : (l.map Node.key).Nodup)
    {a b : Node K V} (ha : a ∈ l) (hb : b ∈ l) (he : a.key = b.key) : a = b :=
  List.inj_on_of_nodup_map hnd ha hb he

theorem mem_tableErase_ne [DecidableEq K] {t : List (K × Nat)} {k : K} {p : K × Nat}
    (hnd : (t.map Prod.fst).Nodup) (hm : p ∈ tableErase t k) : p.1 ≠ k := by
  induction t with
  | nil => simp [tableErase] at hm
  | cons q rest ih =>
    simp only [List.map_cons, List.nodup_cons] at hnd
    by_cases hq : q.1 = k
    · simp only [tableErase, if_pos hq] at hm
      intro he
      have hmem : p.1 ∈ rest.map Prod.fst := List.mem_map_of_mem Prod.fst hm
      rw [he, ← hq] at hmem
      exact hnd.1 hmem
    · simp only [tableErase, if_neg hq] at hm
      rcases List.mem_cons.1 hm with h1 | h1
      · exact h1 ▸ hq
      · exact ih hnd.2 h1

/-! ## Well-formedness is preserved by every public operation -/

theorem WF_setk [DecidableEq K] {m : OMap K V} (hm : WF m) (k : K) (v : V) :
    WF (setk m k v).1 := by
  obtain ⟨hnid, hkey, hlt, htk, htp, hlk⟩ := hm
  cases hf : tableFind m.table k with
  | none =>
    simp only [setk, hf]
    refine ⟨?_, ?_, ?_, ?_, ?_, ?_⟩
    · rw [List.map_append]
      refine List.Nodup.append hnid (by simp) ?_
      simp only [List.map_singleton, List.disjoint_singleton]
      intro hmem
      obtain ⟨e, he, henid⟩ := List.mem_map.1 hmem
      exact absurd henid (Nat.ne_of_lt (hlt e he))
    · rw [List.map_append]
      refine List.Nodup.append hkey (by simp) ?_
      simp only [List.map_singleton, List.disjoint_singleton]
      intro hmem
      obtain ⟨e, he, hek⟩ := List.mem_map.1 hmem
      have := hlk e he
      rw [hek, hf] at this
      exact Option.noConfusion this
    · intro e he
      rcases List.mem_append.1 he with h1 | h1
      · exact Nat.lt_succ_of_lt (hlt e h1)
      · simp only [List.mem_singleton] at h1
        subst h1
        exact Nat.lt_succ_self _
    · rw [List.map_append]
      refine List.Nodup.append htk (by simp) ?_
      simp only [List.map_singleton, List.disjoint_singleton]
      intro hmem
      obtain ⟨p, hp, hpk⟩ := List.mem_map.1 hmem
      exact (tableFind_eq_none.1 hf p hp) hpk
    · intro p hp
      rcases List.mem_append.1 hp with h1 | h1
      · obtain ⟨e, he, hrest⟩ := htp p h1
        exact ⟨e, List.mem_append.2 (Or.inl he), hrest⟩
      · simp only [List.mem_singleton] at h1
        subst h1
        exact ⟨{ nid := m.nextId, key := k, val := v },
          List.mem_append.2 (Or.inr (List.mem_singleton.2 rfl)), rfl, rfl⟩
    · intro e he
      rcases List.mem_append.1 he with h1 | h1
      · rw [tableFind_append, hlk e h1]
      · simp only [List.mem_singleton] at h1
        subst h1
        rw [tableFind_append, hf]
        simp [tableFind]
  | some h =>
    simp only [setk, hf]
    refine ⟨?_, ?_, ?_, htk, ?_, ?_⟩
    · rw [map_upd_nid]
      exact hnid
    · rw [map_upd_key]
      exact hkey
    · intro e' he'
      obtain ⟨e, he, hee⟩ := List.mem_map.1 he'
      rw [← hee, upd_nid]
      exact hlt e he
    · intro p hp
      obtain ⟨e, he, hrest⟩ := htp p hp
      refine ⟨if e.nid = h then { e with val := v } else e,
        List.mem_map_of_mem _ he, ?_, ?_⟩
      · rw [upd_nid]
        exact hrest.1
      · rw [upd_key]
        exact hrest.2
    · intro e' he'
      obtain ⟨e, he, hee⟩ := List.mem_map.1 he'
      rw [← hee, upd_key, upd_nid]
      exact hlk e he

theorem emplacek_eq_setk [DecidableEq K] (m : OMap K V) (k : K) (v : V) :
    emplacek m k v = setk m k v := rfl

theorem WF_erasek [DecidableEq K] {m : OMap K V} (hm : WF m) (k : K) :
    WF (erasek m k).1 := by
  obtain ⟨hnid, hkey, hlt, htk, htp, hlk⟩ := hm
  cases hf : tableFind m.table k with
  | none =>
    simp only [erasek, hf]
    exact ⟨hnid, hkey, hlt, htk, htp, hlk⟩
  | some h =>
    obtain ⟨e0, he0, he0nid, he0key⟩ := htp (k, h) (mem_of_tableFind hf)
    simp only [erasek, hf]
    refine ⟨?_, ?_, ?_, ?_, ?_, ?_⟩
    · exact ((removeNode_sublist m.list h).map Node.nid).nodup hnid
    · exact ((removeNode_sublist m.list h).map Node.key).nodup hkey
    · exact fun e he => hlt e (mem_removeNode he)
    · exact ((tableErase_sublist m.table k).map Prod.fst).nodup htk
    · intro p hp
      have hpk : p.1 ≠ k := mem_tableErase_ne htk hp
      obtain ⟨e, he, henid, hekey⟩ := htp p (mem_tableErase hp)
      refine ⟨e, mem_removeNode_of_ne he ?_, henid, hekey⟩
      intro henh
      have : e = e0 := nid_inj hnid he he0 (henh.trans he0nid.symm)
      exact hpk (hekey ▸ (this ▸ he0key : e.key = k))
    · intro e he
      have hel : e ∈ m.list := mem_removeNode he
      have hek : e.key ≠ k := by
        intro hek
        have : e = e0 := key_inj hkey hel he0 (hek.trans he0key.symm)
        exact (not_mem_removeNode hnid (this ▸ he0nid)) he
      rw [tableFind_tableErase_ne hek]
      exact hlk e hel

theorem eraseIt_eq_erasek [DecidableEq K] {m : OMap K V} (hm : WF m) {h : Nat}
    {e : Node K V} (he : e ∈ m.list) (hh : e.nid = h) :
    eraseIt m h = erasek m e.key := by
  obtain ⟨hnid, hkey, hlt, htk, htp, hlk⟩ := hm
  subst hh
  have hfn : findNode m.list e.nid = some e := findNode_of_mem hnid he
  have hft : tableFind m.table e.key = some e.nid := hlk e he
  simp only [eraseIt, erasek, hfn, hft]

theorem WF_eraseIt [DecidableEq K] {m : OMap K V} (hm : WF m) {h : Nat}
    {e : Node K V} (he : e ∈ m.list) (hh : e.nid = h) :
    WF (eraseIt m h).1 := by
  rw [eraseIt_eq_erasek hm he hh]
  exact WF_erasek hm e.key

theorem WF_mk_empty [DecidableEq K] (n : Nat) :
    WF ({ list := [], table := [], nextId := n } : OMap K V) :=
  ⟨by simp, by simp, by simp, by simp, by simp, by simp⟩

theorem WF_emptyMap [DecidableEq K] : WF (emptyMap K V) :=
  WF_mk_empty 0

theorem WF_clearMap [DecidableEq K] (m : OMap K V) : WF (clearMap m) :=
  WF_mk_empty m.nextId

theorem WF_setAll [DecidableEq K] {m : OMap K V} (hm : WF m) (ps : List (K × V)) :
    WF (setAll m ps) := by
  induction ps generalizing m with
  | nil => exact hm
  | cons p rest ih => exact ih (WF_setk hm p.1 p.2)

/-! ## The sort permutes the sequence nodes -/

theorem insertCmp_perm (cmp : K × V → K × V → Bool) (x : Node K V)
    (l : List (Node K V)) : (insertCmp cmp x l).Perm (x :: l) := by
  induction l with
  | nil => simp [insertCmp]
  | cons y ys ih =>
    by_cases hc : cmp (y.key, y.val) (x.key, x.val)
    · simp only [insertCmp, if_pos hc]
      exact (ih.cons y).trans (List.Perm.swap x y ys)
    · simp only [insertCmp, if_neg hc]
      exact List.Perm.refl _

theorem sortNodes_perm (cmp : K × V → K × V → Bool) (l : List (Node K V)) :
    (sortNodes cmp l).Perm l := by
  induction l with
  | nil => simp [sortNodes]
  | cons x xs ih =>
    exact (insertCmp_perm cmp x (sortNodes cmp xs)).trans (ih.cons x)

theorem WF_sortMap [DecidableEq K] {m : OMap K V} (hm : WF m)
    (cmp : K × V → K × V → Bool) : WF (sortMap m cmp) := by
  obtain ⟨hnid, hkey, hlt, htk, htp, hlk⟩ := hm
  have hperm := sortNodes_perm cmp m.list
  refine ⟨?_, ?_, ?_, htk, ?_, ?_⟩
  · exact ((hperm.map Node.nid).nodup_iff).2 hnid
  · exact ((hperm.map Node.key).nodup_iff).2 hkey
  · exact fun e he => hlt e (hperm.mem_iff.1 he)
  · exact fun p hp => (htp p hp).imp (fun e hE => ⟨hperm.mem_iff.2 hE.1, hE.2⟩)
  · exact fun e he => hlk e (hperm.mem_iff.1 he)

/-! ## The copy constructor rebuilds both structures from scratch -/

theorem copyNodes_map_nid (l : List (Node K V)) (i : Nat) :
    (copyNodes l i).map Node.nid = List.range' i l.length := by
  induction l generalizing i with
  | nil => simp [copyNodes]
  | cons e rest ih => simp [copyNodes, List.range'_succ, ih]

theorem copyNodes_map_key (l : List (Node K V)) (i : Nat) :
    (copyNodes l i).map Node.key = l.map Node.key := by
  induction l generalizing i with
  | nil => simp [copyNodes]
  | cons e rest ih => simp [copyNodes, ih]

theorem copyNodes_entries (l : List (Node K V)) (i : Nat) :
    (copyNodes l i).map (fun e => (e.key, e.val)) = l.map (fun e => (e.key, e.val)) := by
  induction l generalizing i with
  | nil => simp [copyNodes]
  | cons e rest ih => simp [copyNodes, ih]

theorem copyTable_eq (l : List (Node K V)) (i : Nat) :
    copyTable l i = (copyNodes l i).map (fun e => (e.key, e.nid)) := by
  induction l generalizing i with
  | nil => simp [copyTable, copyNodes]
  | cons e rest ih => simp [copyTable, copyNodes, ih]

theorem WF_copyOf [DecidableEq K] {m : OMap K V} (hm : WF m) : WF (copyOf m) := by
  obtain ⟨hnid, hkey, hlt, htk, htp, hlk⟩ := hm
  have hids : (copyNodes m.list 0).map Node.nid = List.range' 0 m.list.length :=
    copyNodes_map_nid m.list 0
  have hkeys : (copyNodes m.list 0).map Node.key = m.list.map Node.key :=
    copyNodes_map_key m.list 0
  have htfst : (copyTable m.list 0).map Prod.fst = m.list.map Node.key := by
    rw [copyTable_eq, List.map_map]
    exact copyNodes_map_key m.list 0
  refine ⟨?_, ?_, ?_, ?_, ?_, ?_⟩
  · show ((copyNodes m.list 0).map Node.nid).Nodup
    rw [hids]
    exact List.nodup_range' _ _
  · show ((copyNodes m.list 0).map Node.key).Nodup
    rw [hkeys]
    exact hkey
  · intro e he
    have he2 : e ∈ copyNodes m.list 0 := he
    have hmem : e.nid ∈ (copyNodes m.list 0).map Node.nid := List.mem_map_of_mem _ he2
    rw [hids] at hmem
    have hb := List.mem_range'_1.1 hmem
    show e.nid < m.list.length
    omega
  · show ((copyTable m.list 0).map Prod.fst).Nodup
    rw [htfst]
    exact hkey
  · intro p hp
    have hp2 : p ∈ copyTable m.list 0 := hp
    rw [copyTable_eq] at hp2
    obtain ⟨e, he, hpe⟩ := List.mem_map.1 hp2
    exact ⟨e, he, by rw [← hpe], by rw [← hpe]⟩
  · intro e he
    have he2 : e ∈ copyNodes m.list 0 := he
    refine tableFind_of_mem ?_ ?_
    · show ((copyTable m.list 0).map Prod.fst).Nodup
      rw [htfst]
      exact hkey
    · show (e.key, e.nid) ∈ copyTable m.list 0
      rw [copyTable_eq]
      exact List.mem_map_of_mem _ he2

theorem WF_moveOf [DecidableEq K] {m : OMap K V} (hm : WF m) :
    WF (moveOf m).1 ∧ WF (moveOf m).2 :=
  ⟨hm, WF_mk_empty 0⟩

theorem WF_coherent [DecidableEq K] {m : OMap K V} (hm : WF m) : IndexCoherent m := by
  obtain ⟨hnid, hkey, hlt, htk, htp, hlk⟩ := hm
  exact ⟨htp, fun e he => ⟨(e.key, e.nid), mem_of_tableFind (hlk e he), rfl, rfl⟩, hkey⟩

/-! ## Observable behavior of `set` -/

theorem setk_absent [DecidableEq K] {m : OMap K V} {k : K} (v : V)
    (hf : tableFind m.table k = none) :
    setk m k v = ({ list := m.list ++ [{ nid := m.nextId, key := k, val := v }],
                    table := m.table ++ [(k, m.nextId)],
                    nextId := m.nextId + 1 }, m.nextId) := by
  simp [setk, hf]

theorem setk_present [DecidableEq K] {m : OMap K V} {k : K} {h : Nat} (v : V)
    (hf : tableFind m.table k = some h) :
    setk m k v =
      ({ m with
         list := m.list.map (fun e => if e.nid = h then { e with val := v } else e) },
       h) := by
  simp [setk, hf]

theorem tableFind_setk [DecidableEq K] (m : OMap K V) (k k2 : K) (v : V) :
    tableFind (setk m k v).1.table k2 =
      if k2 = k then some (setk m k v).2 else tableFind m.table k2 := by
  cases hf : tableFind m.table k with
  | none =>
    rw [setk_absent v hf]
    by_cases h2 : k2 = k
    · subst h2
      rw [tableFind_append, hf, if_pos rfl]
      simp [tableFind]
    · rw [tableFind_append, if_neg h2]
      cases hg : tableFind m.table k2 with
      | none =>
        have hkk : ¬ k = k2 := fun he => h2 he.symm
        simp [tableFind, hkk]
      | some h3 => simp
  | some h =>
    rw [setk_present v hf]
    by_cases h2 : k2 = k
    · subst h2
      simpa using hf
    · simp [h2]

theorem keysList_setk [DecidableEq K] (m : OMap K V) (k : K) (v : V) :
    keysList (setk m k v).1 =
      if hasKey m k then keysList m else keysList m ++ [k] := by
  unfold hasKey
  cases hf : tableFind m.table k with
  | none =>
    rw [setk_absent v hf]
    simp [keysList]
  | some h =>
    rw [setk_present v hf]
    simp only [Option.isSome_some, if_true]
    exact map_upd_key m.list h v

theorem idsList_setk_present [DecidableEq K] {m : OMap K V} {k : K} {h : Nat} (v : V)
    (hf : tableFind m.table k = some h) :
    idsList (setk m k v).1 = idsList m := by
  rw [setk_present v hf]
  exact map_upd_nid m.list h v

theorem length_setk_present [DecidableEq K] {m : OMap K V} {k : K} {h : Nat} (v : V)
    (hf : tableFind m.table k = some h) :
    (setk m k v).1.list.length = m.list.length := by
  rw [setk_present v hf]
  simp

theorem findVal_setk_self [DecidableEq K] {m : OMap K V} (hm : WF m) (k : K) (v : V) :
    findVal (setk m k v).1 k = some v := by
  obtain ⟨hnid, hkey, hlt, htk, htp, hlk⟩ := hm
  have ht := tableFind_setk m k k v
  rw [if_pos rfl] at ht
  cases hf : tableFind m.table k with
  | none =>
    have hret : (setk m k v).2 = m.nextId := by rw [setk_absent v hf]
    rw [hret] at ht
    simp only [findVal, ht]
    rw [setk_absent v hf]
    simp only
    rw [findNode_append]
    have hfn : findNode m.list m.nextId = none :=
      findNode_eq_none.2 (fun e he => Nat.ne_of_lt (hlt e he))
    rw [hfn]
    simp [findNode]
  | some h =>
    have hret : (setk m k v).2 = h := by rw [setk_present v hf]
    rw [hret] at ht
    simp only [findVal, ht]
    rw [setk_present v hf]
    simp only
    rw [findNode_map_of_nid (fun e => upd_nid e h v) h]
    obtain ⟨e0, he0, he0nid, he0key⟩ := htp (k, h) (mem_of_tableFind hf)
    have he0nid2 : e0.nid = h := he0nid
    have hfn : findNode m.list h = some e0 := he0nid2 ▸ findNode_of_mem hnid he0
    rw [hfn]
    simp [he0nid2]

theorem findVal_setk_other [DecidableEq K] {m : OMap K V} (hm : WF m) (k k2 : K)
    (v : V) (hne : k2 ≠ k) : findVal (setk m k v).1 k2 = findVal m k2 := by
  obtain ⟨hnid, hkey, hlt, htk, htp, hlk⟩ := hm
  have ht := tableFind_setk m k k2 v
  rw [if_neg hne] at ht
  simp only [findVal, ht]
  cases hg : tableFind m.table k2 with
  | none => simp
  | some h2 =>
    obtain ⟨e2, he2, he2nid, he2key⟩ := htp (k2, h2) (mem_of_tableFind hg)
    have he2nid2 : e2.nid = h2 := he2nid
    have he2key2 : e2.key = k2 := he2key
    have hfn2 : findNode m.list h2 = some e2 := he2nid2 ▸ findNode_of_mem hnid he2
    cases hf : tableFind m.table k with
    | none =>
      rw [setk_absent v hf]
      simp only
      rw [findNode_append, hfn2]
    | some h =>
      rw [setk_present v hf]
      simp only
      rw [findNode_map_of_nid (fun e => upd_nid e h v) h2, hfn2]
      obtain ⟨e0, he0, he0nid, he0key⟩ := htp (k, h) (mem_of_tableFind hf)
      have he0nid2 : e0.nid = h := he0nid
      have he0key2 : e0.key = k := he0key
      have hne2 : e2.nid ≠ h := by
        intro heq
        have hee : e2 = e0 := nid_inj hnid he2 he0 (heq.trans he0nid2.symm)
        exact hne ((he2key2.symm.trans (congrArg Node.key hee)).trans he0key2)
      simp [hne2]

theorem entries_setk_present [DecidableEq K] {m : OMap K V} {k : K} {h : Nat} (v : V)
    (hm : WF m) (hf : tableFind m.table k = some h) :
    entries (setk m k v).1 =
      (entries m).map (fun p => if p.1 = k then (p.1, v) else p) := by
  obtain ⟨hnid, hkey, hlt, htk, htp, hlk⟩ := hm
  obtain ⟨e0, he0, he0nid, he0key⟩ := htp (k, h) (mem_of_tableFind hf)
  have he0nid2 : e0.nid = h := he0nid
  have he0key2 : e0.key = k := he0key
  rw [setk_present v hf]
  unfold entries
  simp only [List.map_map]
  refine List.map_congr_left (fun e he => ?_)
  by_cases hnh : e.nid = h
  · have hek : e.key = k := by
      have hee : e = e0 := nid_inj hnid he he0 (hnh.trans he0nid2.symm)
      rw [hee, he0key2]
    simp [Function.comp, hnh, hek]
  · have hek : e.key ≠ k := by
      intro hek
      have hee : e = e0 := key_inj hkey he he0 (hek.trans he0key2.symm)
      exact hnh (by rw [hee, he0nid2])
    simp [Function.comp, hnh, hek]

/-! ## Observable behavior of `erase` -/

theorem erasek_absent [DecidableEq K] {m : OMap K V} {k : K}
    (hf : tableFind m.table k = none) : erasek m k = (m, none) := by
  simp [erasek, hf]

theorem erasek_split [DecidableEq K] {m : OMap K V} (hm : WF m) {k : K}
    {pre suf : List (Node K V)} {e : Node K V}
    (hsplit : m.list = pre ++ e :: suf) (hk : e.key = k) :
    (erasek m k).1.list = pre ++ suf ∧
    (erasek m k).2 = (suf.head?).map Node.nid ∧
    tableFind (erasek m k).1.table k = none := by
  obtain ⟨hnid, hkey, hlt, htk, htp, hlk⟩ := hm
  have hel : e ∈ m.list := by
    rw [hsplit]
    exact List.mem_append.2 (Or.inr (List.mem_cons_self e suf))
  have hf : tableFind m.table k = some e.nid := hk ▸ hlk e hel
  have hnid2 : ((pre ++ e :: suf).map Node.nid).Nodup := hsplit ▸ hnid
  rw [List.map_append, List.map_cons] at hnid2
  have hnotin : e.nid ∉ pre.map Node.nid := by
    intro hmem
    exact (List.nodup_append.1 hnid2).2.2 hmem (List.mem_cons_self _ _)
  have hfr : ∀ x ∈ pre, x.nid ≠ e.nid := by
    intro x hx heq
    exact hnotin (heq ▸ List.mem_map_of_mem Node.nid hx)
  refine ⟨?_, ?_, ?_⟩
  · simp only [erasek, hf]
    rw [hsplit, removeNode_eq_append hfr]
  · simp only [erasek, hf]
    rw [hsplit, nextHandle_eq_append hfr]
  · simp only [erasek, hf]
    rw [tableFind_eq_none]
    intro p hp
    exact mem_tableErase_ne htk hp

/-! ## Observable behavior of `sort` -/

theorem findNode_perm {l l2 : List (Node K V)} (hperm : l2.Perm l)
    (hnd : (l.map Node.nid).Nodup) (h : Nat) : findNode l2 h = findNode l h := by
  cases hf : findNode l h with
  | none =>
    rw [findNode_eq_none] at hf
    exact findNode_eq_none.2 (fun e he => hf e (hperm.mem_iff.1 he))
  | some e =>
    have hmm := findNode_some_mem hf
    have hnd2 : (l2.map Node.nid).Nodup := ((hperm.map Node.nid).nodup_iff).2 hnd
    have hres : findNode l2 e.nid = some e := findNode_of_mem hnd2 (hperm.mem_iff.2 hmm.1)
    rw [hmm.2] at hres
    exact hres

theorem derefIt_sortMap [DecidableEq K] {m : OMap K V} (hm : WF m)
    (cmp : K × V → K × V → Bool) (h : Nat) :
    derefIt (sortMap m cmp) h = derefIt m h := by
  obtain ⟨hnid, hkey, hlt, htk, htp, hlk⟩ := hm
  unfold derefIt
  rw [show (sortMap m cmp).list = sortNodes cmp m.list from rfl,
    findNode_perm (sortNodes_perm cmp m.list) hnid]

theorem findVal_sortMap [DecidableEq K] {m : OMap K V} (hm : WF m)
    (cmp : K × V → K × V → Bool) (k : K) :
    findVal (sortMap m cmp) k = findVal m k := by
  obtain ⟨hnid, hkey, hlt, htk, htp, hlk⟩ := hm
  unfold findVal
  rw [show (sortMap m cmp).table = m.table from rfl,
    show (sortMap m cmp).list = sortNodes cmp m.list from rfl]
  cases hf : tableFind m.table k with
  | none => simp
  | some h =>
    simp only
    rw [findNode_perm (sortNodes_perm cmp m.list) hnid]

/-! ## Observable behavior of iterated `set` (the `merge` loop) -/

theorem hasKey_setk [DecidableEq K] (m : OMap K V) (k k2 : K) (v : V) :
    hasKey (setk m k v).1 k2 = if k2 = k then true else hasKey m k2 := by
  unfold hasKey
  rw [tableFind_setk]
  by_cases h2 : k2 = k <;> simp [h2]

theorem entries_setAll_fresh [DecidableEq K] {m : OMap K V} (hm : WF m)
    (ps : List (K × V)) (hnd : (ps.map Prod.fst).Nodup)
    (hfresh : ∀ p ∈ ps, tableFind m.table p.1 = none) :
    entries (setAll m ps) = entries m ++ ps := by
  induction ps generalizing m with
  | nil => simp [setAll]
  | cons p rest ih =>
    rw [List.map_cons, List.nodup_cons] at hnd
    have hf : tableFind m.table p.1 = none := hfresh p (List.mem_cons_self p rest)
    have hstep : setAll m (p :: rest) = setAll (setk m p.1 p.2).1 rest := rfl
    rw [hstep]
    have hfresh2 : ∀ q ∈ rest, tableFind (setk m p.1 p.2).1.table q.1 = none := by
      intro q hq
      rw [tableFind_setk]
      have hqp : q.1 ≠ p.1 := by
        intro he
        exact hnd.1 (he ▸ List.mem_map_of_mem Prod.fst hq)
      rw [if_neg hqp]
      exact hfresh q (List.mem_cons.2 (Or.inr hq))
    rw [ih (WF_setk hm p.1 p.2) hnd.2 hfresh2]
    rw [setk_absent p.2 hf]
    simp [entries]

theorem keysList_setAll [DecidableEq K] {m : OMap K V} (hm : WF m)
    (ps : List (K × V)) (hnd : (ps.map Prod.fst).Nodup) :
    keysList (setAll m ps) =
      keysList m ++ (ps.map Prod.fst).filter (fun k => !(hasKey m k)) := by
  induction ps generalizing m with
  | nil => simp [setAll]
  | cons p rest ih =>
    rw [List.map_cons, List.nodup_cons] at hnd
    have hstep : setAll m (p :: rest) = setAll (setk m p.1 p.2).1 rest := rfl
    rw [hstep, ih (WF_setk hm p.1 p.2) hnd.2]
    have hfilter : (rest.map Prod.fst).filter (fun k => !(hasKey (setk m p.1 p.2).1 k)) =
        (rest.map Prod.fst).filter (fun k => !(hasKey m k)) := by
      refine List.filter_congr (fun a ha => ?_)
      have hap : a ≠ p.1 := by
        intro he
        exact hnd.1 (he ▸ ha)
      rw [hasKey_setk, if_neg hap]
    rw [hfilter, keysList_setk]
    cases hh : hasKey m p.1 with
    | true => simp [List.filter_cons, hh]
    | false => simp [List.filter_cons, hh]

theorem findVal_setAll_other [DecidableEq K] {m : OMap K V} (hm : WF m)
    (ps : List (K × V)) {k : K} (hnot : ∀ p ∈ ps, p.1 ≠ k) :
    findVal (setAll m ps) k = findVal m k := by
  induction ps generalizing m with
  | nil => rfl
  | cons p rest ih =>
    have hstep : setAll m (p :: rest) = setAll (setk m p.1 p.2).1 rest := rfl
    rw [hstep, ih (WF_setk hm p.1 p.2) (fun q hq => hnot q (List.mem_cons.2 (Or.inr hq)))]
    exact findVal_setk_other hm p.1 k p.2 (fun he => hnot p (List.mem_cons_self p rest) he.symm)

theorem findVal_setAll_mem [DecidableEq K] {m : OMap K V} (hm : WF m)
    {ps : List (K × V)} (hnd : (ps.map Prod.fst).Nodup) {k : K} {v : V}
    (hmem : (k, v) ∈ ps) : findVal (setAll m ps) k = some v := by
  induction ps generalizing m with
  | nil => simp at hmem
  | cons p rest ih =>
    rw [List.map_cons, List.nodup_cons] at hnd
    have hstep : setAll m (p :: rest) = setAll (setk m p.1 p.2).1 rest := rfl
    rw [hstep]
    rcases List.mem_cons.1 hmem with h1 | h1
    · have hk : p.1 = k := by rw [← h1]
      have hv : p.2 = v := by rw [← h1]
      have hnot : ∀ q ∈ rest, q.1 ≠ k := by
        intro q hq he
        exact hnd.1 (hk ▸ he ▸ List.mem_map_of_mem Prod.fst hq)
      rw [findVal_setAll_other (WF_setk hm p.1 p.2) rest hnot, ← hk, ← hv]
      exact findVal_setk_self hm p.1 p.2
    · exact ih (WF_setk hm p.1 p.2) hnd.2 h1

theorem findVal_mem_entry [DecidableEq K] {m : OMap K V} (hm : WF m) {k : K} {h : Nat}
    (hf : tableFind m.table k = some h) :
    ∃ e ∈ m.list, e.key = k ∧ findVal m k = some e.val := by
  obtain ⟨hnid, hkey, hlt, htk, htp, hlk⟩ := hm
  obtain ⟨e, he, henid, hekey⟩ := htp (k, h) (mem_of_tableFind hf)
  have henid2 : e.nid = h := henid
  have hekey2 : e.key = k := hekey
  refine ⟨e, he, hekey2, ?_⟩
  unfold findVal
  rw [hf]
  show Option.map Node.val (findNode m.list h) = some e.val
  rw [← henid2, findNode_of_mem hnid he]
  rfl

/-! ## Auxiliary facts used by claim witnesses -/

theorem cmpByVal_swo : IsSWO cmpByVal := by
  refine ⟨fun a => ?_, fun a b c h1 h2 => ?_, fun a b c h1 h2 h3 h4 => ?_⟩
  · simp [cmpByVal]
  · simp only [cmpByVal, decide_eq_true_eq] at h1 h2 ⊢
    omega
  · simp only [cmpByVal, decide_eq_false_iff_not] at h1 h2 h3 h4
    refine ⟨?_, ?_⟩ <;> simp only [cmpByVal, decide_eq_false_iff_not] <;> omega

/-! ## Claim theorems -/

/-- C1: after every public operation (set, emplace, erase by key, erase by
handle, sort, merge, clear, copy, move), the key set of the Index equals the
key set of the Sequence, every Index handle resolves in the Sequence to the
node carrying exactly its key, and no two Sequence entries share a key
(invariants I1 and I2), starting from any well-formed state. -/
theorem claim_C1 [DecidableEq K] :
    (∀ (m : OMap K V) (k : K) (v : V), WF m → IndexCoherent (setk m k v).1) ∧
    (∀ (m : OMap K V) (k : K) (v : V), WF m → IndexCoherent (emplacek m k v).1) ∧
    (∀ (m : OMap K V) (k : K), WF m → IndexCoherent (erasek m k).1) ∧
    (∀ (m : OMap K V) (h : Nat) (e : Node K V), WF m → e ∈ m.list → e.nid = h →
      IndexCoherent (eraseIt m h).1) ∧
    (∀ (m : OMap K V) (cmp : K × V → K × V → Bool), WF m →
      IndexCoherent (sortMap m cmp)) ∧
    (∀ m o : OMap K V, WF m → WF o →
      IndexCoherent (mergeMaps m o).1 ∧ IndexCoherent (mergeMaps m o).2) ∧
    (∀ m : OMap K V, IndexCoherent (clearMap m)) ∧
    (∀ m : OMap K V, WF m → IndexCoherent (copyOf m)) ∧
    (∀ m : OMap K V, WF m → IndexCoherent (moveOf m).1 ∧ IndexCoherent (moveOf m).2) := by
  refine ⟨?_, ?_, ?_, ?_, ?_, ?_, ?_, ?_, ?_⟩
  · exact fun m k v hm => WF_coherent (WF_setk hm k v)
  · intro m k v hm
    rw [emplacek_eq_setk]
    exact WF_coherent (WF_setk hm k v)
  · exact fun m k hm => WF_coherent (WF_erasek hm k)
  · exact fun m h e hm he hh => WF_coherent (WF_eraseIt hm he hh)
  · exact fun m cmp hm => WF_coherent (WF_sortMap hm cmp)
  · exact fun m o hm ho =>
      ⟨WF_coherent (WF_setAll hm _), WF_coherent (WF_clearMap o)⟩
  · exact fun m => WF_coherent (WF_clearMap m)
  · exact fun m hm => WF_coherent (WF_copyOf hm)
  · exact fun m hm => ⟨WF_coherent hm, WF_coherent (WF_mk_empty 0)⟩

theorem claim_C1_w :
    IndexCoherent (setk sampleA 3 7).1 ∧
    IndexCoherent (erasek sampleA 1).1 ∧
    IndexCoherent (eraseIt sampleA 0).1 ∧
    IndexCoherent (mergeMaps sampleA sampleB).1 :=
  ⟨(@claim_C1 Nat Nat _).1 sampleA 3 7 (by decide),
   (@claim_C1 Nat Nat _).2.2.1 sampleA 1 (by decide),
   (@claim_C1 Nat Nat _).2.2.2.1 sampleA 0 { nid := 0, key := 1, val := 10 }
     (by decide) (by decide) rfl,
   ((@claim_C1 Nat Nat _).2.2.2.2.2.1 sampleA sampleB (by decide) (by decide)).1⟩

/-- C2: `set(key, value)` is a total upsert: on an absent key it appends the
new entry at the tail, registers the fresh handle in the index and returns
it; on a present key it returns the existing handle, leaves the size, the
node identities and all positions unchanged, overwrites only that key's
value in place, and `find` then yields the new value. -/
theorem claim_C2 [DecidableEq K] (m : OMap K V) (k : K) (v : V) (hm : WF m) :
    (tableFind m.table k = none →
      (setk m k v).1.list = m.list ++ [{ nid := m.nextId, key := k, val := v }] ∧
      (setk m k v).2 = m.nextId ∧
      tableFind (setk m k v).1.table k = some m.nextId ∧
      findVal (setk m k v).1 k = some v) ∧
    (∀ h, tableFind m.table k = some h →
      (setk m k v).2 = h ∧
      (setk m k v).1.list.length = m.list.length ∧
      idsList (setk m k v).1 = idsList m ∧
      entries (setk m k v).1 = (entries m).map (fun p => if p.1 = k then (p.1, v) else p) ∧
      findVal (setk m k v).1 k = some v) := by
  constructor
  · intro hf
    have h2 : (setk m k v).2 = m.nextId := by rw [setk_absent v hf]
    refine ⟨?_, h2, ?_, findVal_setk_self hm k v⟩
    · rw [setk_absent v hf]
    · rw [tableFind_setk, if_pos rfl, h2]
  · intro h hf
    have h2 : (setk m k v).2 = h := by rw [setk_present v hf]
    exact ⟨h2, length_setk_present v hf, idsList_setk_present v hf,
      entries_setk_present v hm hf, findVal_setk_self hm k v⟩

theorem claim_C2_w :
    findVal (setk sampleA 1 5).1 1 = some 5 ∧
    (setk sampleA 1 5).2 = 0 ∧
    findVal (setk sampleA 3 7).1 3 = some 7 ∧
    (setk sampleA 3 7).2 = 2 :=
  ⟨((claim_C2 sampleA 1 5 (by decide)).2 0 (by decide)).2.2.2.2,
   ((claim_C2 sampleA 1 5 (by decide)).2 0 (by decide)).1,
   ((claim_C2 sampleA 3 7 (by decide)).1 (by decide)).2.2.2,
   ((claim_C2 sampleA 3 7 (by decide)).1 (by decide)).2.1⟩

/-- C3: a sequence of `set` calls with pairwise distinct keys on an
initially empty container produces exactly those (key, value) entries, in
call order, as the iteration sequence. -/
theorem claim_C3 [DecidableEq K] (ps : List (K × V))
    (hnd : (ps.map Prod.fst).Nodup) :
    entries (setAll (emptyMap K V) ps) = ps := by
  rw [entries_setAll_fresh WF_emptyMap ps hnd (fun p hp => rfl)]
  rfl

theorem claim_C3_w :
    entries (setAll (emptyMap String Nat) [("a", 1), ("b", 2), ("c", 3)]) =
      [("a", 1), ("b", 2), ("c", 3)] :=
  claim_C3 [("a", 1), ("b", 2), ("c", 3)] (by decide)

/-- C4: `erase(key)` on an absent key returns the end sentinel and leaves
the container unchanged; on a present key it removes exactly that entry,
removes the key from the index, and returns the handle of the entry that
immediately followed it (the end sentinel when it was last). -/
theorem claim_C4 [DecidableEq K] (m : OMap K V) (k : K) (hm : WF m) :
    (tableFind m.table k = none → erasek m k = (m, none)) ∧
    (∀ (pre suf : List (Node K V)) (e : Node K V),
      m.list = pre ++ e :: suf → e.key = k →
      (erasek m k).1.list = pre ++ suf ∧
      (erasek m k).2 = (suf.head?).map Node.nid ∧
      (suf = [] → (erasek m k).2 = none) ∧
      tableFind (erasek m k).1.table k = none) := by
  refine ⟨fun hf => erasek_absent hf, ?_⟩
  intro pre suf e hsplit hk
  obtain ⟨h1, h2, h3⟩ := erasek_split hm hsplit hk
  refine ⟨h1, h2, ?_, h3⟩
  intro hs
  rw [h2, hs]
  rfl

theorem claim_C4_w :
    (erasek sampleA 1).1.list = [] ++ [{ nid := 1, key := 2, val := 20 }] ∧
    (erasek sampleA 2).2 = none ∧
    erasek sampleA 5 = (sampleA, none) :=
  ⟨((claim_C4 sampleA 1 (by decide)).2 [] [{ nid := 1, key := 2, val := 20 }]
      { nid := 0, key := 1, val := 10 } (by decide) (by decide)).1,
   ((claim_C4 sampleA 2 (by decide)).2 [{ nid := 0, key := 1, val := 10 }] []
      { nid := 1, key := 2, val := 20 } (by decide) (by decide)).2.2.1 rfl,
   (claim_C4 sampleA 5 (by decide)).1 (by decide)⟩

/-- C5: for every well-formed container and every comparator that is a
strict weak ordering, `sort` only permutes the traversal order: the size and
the multiset of entries are unchanged, `find` returns the same value for
every key, and every handle still dereferences to the same (key, value). -/
theorem claim_C5 [DecidableEq K] (m : OMap K V) (cmp : K × V → K × V → Bool)
    (hm : WF m) (_hswo : IsSWO cmp) :
    (sortMap m cmp).list.Perm m.list ∧
    mapSize (sortMap m cmp) = mapSize m ∧
    (entries (sortMap m cmp)).Perm (entries m) ∧
    (∀ k, findVal (sortMap m cmp) k = findVal m k) ∧
    (∀ h, derefIt (sortMap m cmp) h = derefIt m h) := by
  have hperm : ((sortMap m cmp).list).Perm m.list := sortNodes_perm cmp m.list
  exact ⟨hperm, hperm.length_eq, hperm.map _,
    fun k => findVal_sortMap hm cmp k, fun h => derefIt_sortMap hm cmp h⟩

theorem claim_C5_w :
    findVal (sortMap sampleA cmpByVal) 1 = findVal sampleA 1 ∧
    derefIt (sortMap sampleA cmpByVal) 0 = derefIt sampleA 0 ∧
    mapSize (sortMap sampleA cmpByVal) = mapSize sampleA :=
  ⟨(claim_C5 sampleA cmpByVal (by decide) cmpByVal_swo).2.2.2.1 1,
   (claim_C5 sampleA cmpByVal (by decide) cmpByVal_swo).2.2.2.2 0,
   (claim_C5 sampleA cmpByVal (by decide) cmpByVal_swo).2.1⟩

/-- C6: `merge(other)` performs `set` on self for each entry of `other` in
`other`'s sequence order: keys already in self keep their position with the
value updated in place, keys new to self are appended in `other`'s order,
lookups afterwards yield `other`'s value for keys of `other` and self's
value for the rest, and `other` is left empty. -/
theorem claim_C6 [DecidableEq K] (m o : OMap K V) (hm : WF m) (ho : WF o) :
    (mergeMaps m o).2.list = [] ∧
    (mergeMaps m o).2.table = [] ∧
    keysList (mergeMaps m o).1 =
      keysList m ++ (keysList o).filter (fun k => !(hasKey m k)) ∧
    (∀ k h, tableFind o.table k = some h →
      findVal (mergeMaps m o).1 k = findVal o k) ∧
    (∀ k, tableFind o.table k = none → findVal (mergeMaps m o).1 k = findVal m k) := by
  have hps : (o.list.map (fun e => (e.key, e.val))).map Prod.fst = keysList o := by
    simp [keysList, List.map_map, Function.comp]
  have hpsnd : ((o.list.map (fun e => (e.key, e.val))).map Prod.fst).Nodup := by
    rw [hps]
    exact ho.2.1
  refine ⟨rfl, rfl, ?_, ?_, ?_⟩
  · show keysList (setAll m (o.list.map (fun e => (e.key, e.val)))) = _
    rw [keysList_setAll hm _ hpsnd, hps]
  · intro k h hf
    obtain ⟨e, he, hekey, hfv⟩ := findVal_mem_entry ho hf
    have hmem : (k, e.val) ∈ o.list.map (fun x => (x.key, x.val)) := by
      rw [← hekey]
      exact List.mem_map_of_mem _ he
    rw [hfv]
    exact findVal_setAll_mem hm hpsnd hmem
  · intro k hf
    refine findVal_setAll_other hm _ ?_
    intro p hp he
    obtain ⟨e, he2, hpe⟩ := List.mem_map.1 hp
    have hek : e.key = p.1 := by rw [← hpe]
    have hsome := ho.2.2.2.2.2 e he2
    rw [hek, he, hf] at hsome
    exact Option.noConfusion hsome

theorem claim_C6_w :
    (mergeMaps sampleA sampleB).2.list = [] ∧
    keysList (mergeMaps sampleA sampleB).1 =
      keysList sampleA ++ (keysList sampleB).filter (fun k => !(hasKey sampleA k)) ∧
    findVal (mergeMaps sampleA sampleB).1 2 = findVal sampleB 2 ∧
    findVal (mergeMaps sampleA sampleB).1 1 = findVal sampleA 1 :=
  ⟨(claim_C6 sampleA sampleB (by decide) (by decide)).1,
   (claim_C6 sampleA sampleB (by decide) (by decide)).2.2.1,
   (claim_C6 sampleA sampleB (by decide) (by decide)).2.2.2.1 2 0 (by decide),
   (claim_C6 sampleA sampleB (by decide) (by decide)).2.2.2.2 1 (by decide)⟩

/-- C7: `front()` is `begin()` and returns the first entry, or the end
sentinel on an empty container; `back()` is `std::prev(list.end())` and
returns the last entry on a nonempty container, but on an empty container
the end iterator has no predecessor, so the call is undefined rather than
the end sentinel the spec promises (the code slip behind this claim). -/
theorem claim_C7 (m : OMap K V) :
    (m.list = [] → frontOutcome m = ItOutcome.stop ∧ backIt m = ItOutcome.undef) ∧
    (∀ (e : Node K V) (rest : List (Node K V)), m.list = e :: rest →
      frontOutcome m = ItOutcome.node e.nid) ∧
    (∀ e : Node K V, m.list.getLast? = some e → backIt m = ItOutcome.node e.nid) := by
  refine ⟨?_, ?_, ?_⟩
  · intro hnil
    unfold frontOutcome backIt
    rw [hnil]
    exact ⟨rfl, rfl⟩
  · intro e rest hcons
    unfold frontOutcome
    rw [hcons]
    rfl
  · intro e hlast
    unfold backIt
    rw [hlast]

theorem claim_C7_w :
    backIt (emptyMap Nat Nat) = ItOutcome.undef ∧
    frontOutcome (emptyMap Nat Nat) = ItOutcome.stop ∧
    frontOutcome sampleA = ItOutcome.node 0 ∧
    backIt sampleA = ItOutcome.node 1 :=
  ⟨((claim_C7 (emptyMap Nat Nat)).1 rfl).2,
   ((claim_C7 (emptyMap Nat Nat)).1 rfl).1,
   (claim_C7 sampleA).2.1 { nid := 0, key := 1, val := 10 }
     [{ nid := 1, key := 2, val := 20 }] rfl,
   (claim_C7 sampleA).2.2 { nid := 1, key := 2, val := 20 } (by decide)⟩

/-- C8: `at(p)` returns the handle of the p-th entry of the current order
when `p < size` (and that handle coincides with `find` on that entry's key),
and the end sentinel when `p ≥ size` (clamped, never a failure); on the
container built by set("a",1); set("b",2); set("c",3) the positional and
key lookups denote the same entries and at(3) is not-found. -/
theorem claim_C8 :
    (∀ (K V : Type) (m : OMap K V) (p : Nat), m.list.length ≤ p → atPos m p = none) ∧
    (∀ (K V : Type) [DecidableEq K] (m : OMap K V) (p : Nat) (e : Node K V),
      WF m → m.list[p]? = some e →
      atPos m p = some e.nid ∧ tableFind m.table e.key = some e.nid) ∧
    (atPos buildABC 0 = tableFind buildABC.table "a" ∧
     atPos buildABC 1 = tableFind buildABC.table "b" ∧
     atPos buildABC 2 = tableFind buildABC.table "c" ∧
     atPos buildABC 3 = none) := by
  refine ⟨?_, ?_, by decide⟩
  · intro K V m p hp
    unfold atPos
    rw [Nat.min_eq_right hp, List.getElem?_eq_none (Nat.le_refl _)]
    rfl
  · intro K V inst m p e hm hp
    have hmem : e ∈ m.list := List.getElem?_mem hp
    have hlt : p < m.list.length := by
      obtain ⟨hl, hv⟩ := List.getElem?_eq_some.1 hp
      exact hl
    refine ⟨?_, hm.2.2.2.2.2 e hmem⟩
    unfold atPos
    rw [Nat.min_eq_left (Nat.le_of_lt hlt), hp]
    rfl

theorem claim_C8_w :
    atPos sampleA 5 = none ∧ atPos sampleA 1 = some 1 :=
  ⟨claim_C8.1 Nat Nat sampleA 5 (by decide),
   (claim_C8.2.1 Nat Nat sampleA 1 { nid := 1, key := 2, val := 20 }
     (by decide) (by decide)).1⟩

/-- C9: copying a container produces an independent container with the same
(key, value) entries in the same order, whose sequence nodes are brand-new
(freshly numbered identities) and whose index is rebuilt to point at those
fresh nodes, re-establishing I1/I2 from scratch; copy assignment (between
distinct objects) builds the very same result. -/
theorem claim_C9 [DecidableEq K] (m : OMap K V) (hm : WF m) :
    entries (copyOf m) = entries m ∧
    idsList (copyOf m) = List.range' 0 m.list.length ∧
    IndexCoherent (copyOf m) ∧
    WF (copyOf m) ∧
    (∀ t : OMap K V, copyAssign t m false = copyOf m) := by
  refine ⟨copyNodes_entries m.list 0, ?_, WF_coherent (WF_copyOf hm), WF_copyOf hm,
    fun t => rfl⟩
  show (copyNodes m.list 0).map Node.nid = _
  exact copyNodes_map_nid m.list 0

theorem claim_C9_w :
    entries (copyOf sampleA) = entries sampleA ∧
    idsList (copyOf sampleA) = List.range' 0 sampleA.list.length ∧
    WF (copyOf sampleA) :=
  ⟨(claim_C9 sampleA (by decide)).1,
   (claim_C9 sampleA (by decide)).2.1,
   (claim_C9 sampleA (by decide)).2.2.2.1⟩

/-- C10: self-assignment is a no-op thanks to the `this != &other` guard of
both assignment operators: copy-assigning and move-assigning a container to
itself leave it with the same entries in the same order. -/
theorem claim_C10 (m : OMap K V) :
    copyAssign m m true = m ∧
    moveAssign m m true = (m, m) ∧
    entries (copyAssign m m true) = entries m ∧
    entries (moveAssign m m true).1 = entries m :=
  ⟨rfl, rfl, rfl, rfl⟩

end OrderedMapModel
